import Mathlib

/-!
A shallow embedding of `src/day_12.rs` (Advent of Code 2023 day 12,
"Hot Springs").  Run lengths, positions and target counts are `u8` in the
source; they are modelled as `Nat` with the `u8` effects made explicit
where they are observable: the wrapping of the `u8` accumulator of
`spring_at` is modelled in `spring_atU8`, the truncating `as u8` cast of
`parse_springs` as `% 256`, and the panics of `decide` (the `assert_eq!`,
the underflow of `start_remaining -= group.value()`, and the overflow of
the run-merging `u8` addition inside `push_group` — panics in debug
builds, the mode the repository's test suite runs under) as
`Except.error`.  Rust `Vec` push/pop at the back is modelled by list
operations at the head of a reversed accumulator where noted.
-/

set_option linter.unusedVariables false

namespace Day12

/-- Cell condition of a run of springs, carrying the run length
(`Operational`/`Damaged`/`Unknown` in `day_12.rs`, lengths are `u8`,
modelled as `Nat`). -/
inductive SpringCondition where
  | operational : Nat → SpringCondition
  | damaged : Nat → SpringCondition
  | unknown : Nat → SpringCondition
deriving DecidableEq, Repr

namespace SpringCondition

/-- `SpringCondition::value` -/
def value : SpringCondition → Nat
  | operational n => n
  | damaged n => n
  | unknown n => n

/-- `SpringCondition::is_operational` -/
def is_operational : SpringCondition → Bool
  | operational _ => true
  | _ => false

/-- `SpringCondition::is_damaged` -/
def is_damaged : SpringCondition → Bool
  | damaged _ => true
  | _ => false

/-- `SpringCondition::is_unknown` -/
def is_unknown : SpringCondition → Bool
  | unknown _ => true
  | _ => false

/-- `SpringCondition::with_value` -/
def with_value : SpringCondition → Nat → SpringCondition
  | operational _, v => operational v
  | damaged _, v => damaged v
  | unknown _, v => unknown v

/-- `SpringCondition::same_type` -/
def same_type (a b : SpringCondition) : Bool :=
  (a.is_operational && b.is_operational)
    || (a.is_damaged && b.is_damaged)
    || (a.is_unknown && b.is_unknown)

end SpringCondition

open SpringCondition

/-- `ConditionRow` in `day_12.rs`: run-length encoded springs plus the
target damaged-group counts (`Vec<u8>`, modelled as `List Nat`). -/
structure ConditionRow where
  springs : List SpringCondition
  damaged_counts : List Nat
deriving DecidableEq, Repr

namespace ConditionRow

/-- `ConditionRow::spring_at`: walk the runs accumulating the cumulative
length `curr`; return the first run with `curr > pos`.  The accumulator is a
`u8` in the source; this is the idealised (non-wrapping) version. -/
def spring_atAux (pos : Nat) : Nat → List SpringCondition → Option SpringCondition
  | _, [] => none
  | curr, g :: rest =>
    let c := curr + g.value
    if pos < c then some g else spring_atAux pos c rest

def spring_at (row : ConditionRow) (pos : Nat) : Option SpringCondition :=
  spring_atAux pos 0 row.springs

/-- `ConditionRow::spring_at` with the source's `u8` accumulator made
explicit: `curr += group.value()` wraps modulo 2^8. -/
def spring_atAuxU8 (pos : Nat) : Nat → List SpringCondition → Option SpringCondition
  | _, [] => none
  | curr, g :: rest =>
    let c := (curr + g.value) % 256
    if pos < c then some g else spring_atAuxU8 pos c rest

def spring_atU8 (row : ConditionRow) (pos : Nat) : Option SpringCondition :=
  spring_atAuxU8 pos 0 row.springs

end ConditionRow

/-- The three ways `ConditionRow::decide` can panic (in a debug build, the
mode the repository's test suite runs under): the `assert_eq!` on a damaged
group consumed by the start phase, underflow of the `u8` subtraction
`start_remaining -= group.value()`, and overflow of the `u8` addition
`prev_group.value() + new_group.value()` when `push_group` merges two
same-type runs. -/
inductive DecidePanic where
  | assertFailed : DecidePanic
  | subUnderflow : DecidePanic
  | addOverflow : DecidePanic
deriving DecidableEq, Repr

namespace ConditionRow

/-- `push_group` (nested fn inside `ConditionRow::decide`).  The Rust code
pushes/pops at the *end* of `new_springs`; we keep the accumulator reversed
(head = last pushed group) and reverse once at the end of `decide`.
Merging adds the two run lengths in `u8` arithmetic: a sum beyond 255
overflows, a debug-build panic, modelled as `.error .addOverflow`. -/
def push_group (vec : List SpringCondition) (new_group : SpringCondition) :
    Except DecidePanic (List SpringCondition) :=
  match vec with
  | [] => .ok [new_group]
  | prev_group :: rest =>
    if prev_group.same_type new_group then
      if prev_group.value + new_group.value ≤ 255 then
        .ok (new_group.with_value (prev_group.value + new_group.value) :: rest)
      else .error .addOverflow
    else
      .ok (new_group :: prev_group :: rest)

/-- The loop of `ConditionRow::decide`.  `new_counts` is kept in original
order with the head as the next element popped (the source reverses the
vector and pops from the back, which is the same thing).  `Except.error`
marks the places where the Rust code panics in a debug build: the
`assert_eq!` on a damaged group consumed by the start phase failing, the
`u8` subtraction `start_remaining -= group.value()` underflowing, and the
`u8` overflow inside `push_group`. -/
def decideLoop (rep : SpringCondition) :
    List SpringCondition → Nat → Nat → List SpringCondition → List Nat →
    Except DecidePanic (List SpringCondition × List Nat)
  | [], _, _, acc, counts => .ok (acc.reverse, counts)
  | g :: rest, sr, rr, acc, counts =>
    if 0 < sr then
      if g.value ≤ sr then
        if g.is_damaged then
          match counts with
          | c :: cs =>
            if c = g.value then decideLoop rep rest (sr - g.value) rr acc cs
            else .error .assertFailed
          | [] => .error .assertFailed
        else decideLoop rep rest (sr - g.value) rr acc counts
      else .error .subUnderflow
    else if rr = 0 then
      match push_group acc g with
      | .error p => .error p
      | .ok acc' => decideLoop rep rest sr rr acc' counts
    else if rr ≤ g.value then
      match push_group acc rep with
      | .error p => .error p
      | .ok acc1 =>
        if rr < g.value then
          match push_group acc1 (g.with_value (g.value - rr)) with
          | .error p => .error p
          | .ok acc2 => decideLoop rep rest sr 0 acc2 counts
        else decideLoop rep rest sr 0 acc1 counts
    else
      decideLoop rep rest sr (rr - g.value) acc counts

/-- `ConditionRow::decide` -/
def decide (row : ConditionRow) (start : Nat) (replacement : SpringCondition) :
    Except DecidePanic ConditionRow :=
  (decideLoop replacement row.springs start replacement.value [] row.damaged_counts).map
    fun p => ⟨p.1, p.2⟩

/-- `[T]::repeat` -/
def repeatList {α : Type} (l : List α) : Nat → List α
  | 0 => []
  | n + 1 => l ++ repeatList l n

/-- The spring sequence built by `ConditionRow::explode` before
normalisation: the original runs followed by `repeats - 1` copies of
`Unknown(1)` then the original runs (`for _ in 1..repeats`). -/
def explodeSprings (s : List SpringCondition) (repeats : Nat) :
    List SpringCondition :=
  s ++ repeatList (unknown 1 :: s) (repeats - 1)

/-- `ConditionRow::explode` -/
def explode (row : ConditionRow) (repeats : Nat) : Except DecidePanic ConditionRow :=
  ConditionRow.decide
    ⟨explodeSprings row.springs repeats, repeatList row.damaged_counts repeats⟩
    0 (operational 0)

end ConditionRow

/-- The inner `for spring_group in ...` loop of `count_permutations`:
walks `current.springs ++ [Operational(1)]` keeping `count_index`,
`spring_index`, `non_operational_group_start`, `starts_with_damaged` and
`has_damaged`, and returns the rows pushed onto `to_visit` (in push order).
`Except.error` propagates a panic from `decide`. -/
def branchLoop (current : ConditionRow) :
    List SpringCondition → Nat → Nat → Option Nat → Bool → Bool →
    Except DecidePanic (List ConditionRow)
  | [], _, _, _, _, _ => .ok []
  | g :: rest, countIdx, springIdx, nonOpStart, startsWithDamaged, hasDamaged =>
    let expected := (current.damaged_counts.get? countIdx).getD 0
    match g, nonOpStart with
    | .operational n, none =>
      branchLoop current rest countIdx (springIdx + n) none startsWithDamaged hasDamaged
    | .operational _, some startPos =>
      let nonOpLength := springIdx - startPos
      if nonOpLength < expected && !hasDamaged then
        (current.decide startPos (.operational nonOpLength)).map fun r => [r]
      else if expected ≤ nonOpLength then
        let first : Except DecidePanic (List ConditionRow) :=
          match current.spring_at (startPos + expected) with
          | none => (current.decide startPos (.damaged expected)).map fun r => [r]
          | some (.damaged _) => .ok []
          | some _ =>
            ((current.decide startPos (.damaged expected)).bind fun r =>
                r.decide (startPos + expected) (.operational 1)).map fun r => [r]
        if startsWithDamaged then first
        else
          first.bind fun l =>
            (current.decide startPos (.operational 1)).map fun r => l ++ [r]
      else .ok []
    | .damaged n, none =>
      if expected < n then .ok []
      else if n = expected then
        branchLoop current rest (countIdx + 1) (springIdx + n) none startsWithDamaged hasDamaged
      else
        branchLoop current rest countIdx (springIdx + n) (some springIdx) true true
    | .unknown n, none =>
      branchLoop current rest countIdx (springIdx + n) (some springIdx) false false
    | .damaged n, some s =>
      branchLoop current rest countIdx (springIdx + n) (some s) startsWithDamaged true
    | .unknown n, some s =>
      branchLoop current rest countIdx (springIdx + n) (some s) startsWithDamaged hasDamaged

/-- The `while let Some(current) = to_visit.pop()` loop of
`count_permutations`.  `to_visit` is a stack with its top at the head (the
Rust `Vec` pushes and pops at the back, so a batch of pushes lands on the
stack reversed — hence `pushes.reverse ++ rest`).  `visited` holds the
spring sequences already seen.  Recursion is fuelled. -/
inductive CountResult where
  | ok : Nat → CountResult
  | panicked : DecidePanic → CountResult
  | outOfFuel : CountResult
deriving DecidableEq, Repr

/-- The ordered list of `Damaged` run lengths of a row's springs (the
`actual_counts` computed by `count_permutations` for a fully decided row). -/
def damaged_run_lengths (row : ConditionRow) : List Nat :=
  row.springs.filterMap fun c =>
    match c with
    | .damaged n => some n
    | _ => none

def countLoop :
    Nat → List (List SpringCondition) → List ConditionRow → Nat → CountResult
  | _, _, [], permutations => .ok permutations
  | 0, _, _ :: _, _ => .outOfFuel
  | fuel + 1, visited, current :: rest, permutations =>
    if current.springs ∈ visited then
      countLoop fuel visited rest permutations
    else
      let visited' := current.springs :: visited
      if (current.springs.filter SpringCondition.is_unknown).length = 0 then
        countLoop fuel visited' rest
          (if damaged_run_lengths current = current.damaged_counts then
            permutations + 1
           else permutations)
      else
        match branchLoop current (current.springs ++ [.operational 1]) 0 0 none false false with
        | .error p => .panicked p
        | .ok pushes => countLoop fuel visited' (pushes.reverse ++ rest) permutations

/-- `count_permutations`, fuelled. -/
def count_permutations (fuel : Nat) (row : ConditionRow) : CountResult :=
  countLoop fuel [] [row] 0

/-- `sum_permutations`: sum `count_permutations` across the rows, a panic
aborting the whole sum. -/
def sum_permutations (fuel : Nat) : List ConditionRow → CountResult
  | [] => .ok 0
  | row :: rest =>
    match count_permutations fuel row with
    | .ok n =>
      match sum_permutations fuel rest with
      | .ok m => .ok (n + m)
      | e => e
    | e => e

/-- `sum_exploded_permutations`: sum `count_permutations` of each row
unfolded by 5, a panic aborting the whole sum. -/
def sum_exploded_permutations (fuel : Nat) : List ConditionRow → CountResult
  | [] => .ok 0
  | row :: rest =>
    match row.explode 5 with
    | .error p => .panicked p
    | .ok exploded =>
      match count_permutations fuel exploded with
      | .ok n =>
        match sum_exploded_permutations fuel rest with
        | .ok m => .ok (n + m)
        | e => e
      | e => e

section Parsing

/-- `str::split_once` at the first occurrence of `sep`. -/
def splitOnce (sep : Char) : List Char → Option (List Char × List Char)
  | [] => none
  | c :: rest =>
    if c = sep then some ([], rest)
    else (splitOnce sep rest).map fun p => (c :: p.1, p.2)

/-- `str::split(sep)`: split at every occurrence, keeping empty pieces. -/
def splitAll (sep : Char) : List Char → List (List Char)
  | [] => [[]]
  | c :: rest =>
    let groups := splitAll sep rest
    if c = sep then [] :: groups
    else
      match groups with
      | g :: gs => (c :: g) :: gs
      | [] => [[c]]

/-- Maximal runs of equal characters, as `Itertools::group_by` produces
them: `(char, run length)` pairs, in order. -/
def runsOf : List Char → List (Char × Nat)
  | [] => []
  | c :: rest =>
    match runsOf rest with
    | (c', n) :: more => if c = c' then (c, n + 1) :: more else (c, 1) :: (c', n) :: more
    | [] => [(c, 1)]

/-- One run of `parse_springs`: `'?'`, `'.'`, `'#'` map to a condition,
anything else hits `unreachable!()` (a panic, modelled as `none`).  The
run length is `group.count() as u8` in the source — a truncating cast,
modelled as `% 256`. -/
def springOfRun (r : Char × Nat) : Option SpringCondition :=
  if r.1 = '?' then some (SpringCondition.unknown (r.2 % 256))
  else if r.1 = '.' then some (SpringCondition.operational (r.2 % 256))
  else if r.1 = '#' then some (SpringCondition.damaged (r.2 % 256))
  else none

/-- The run-by-run translation loop of `parse_springs`: every run must
translate, a failing run propagates the panic. -/
def springsOfRuns : List (Char × Nat) → Option (List SpringCondition)
  | [] => some []
  | r :: rest => (springOfRun r).bind fun g => (springsOfRuns rest).map (g :: ·)

/-- `parse_springs` -/
def parse_springs (spec : List Char) : Option (List SpringCondition) :=
  springsOfRuns (runsOf spec)

/-- Digit-string part of `str::parse::<u8>`: one or more ASCII digits whose
value is at most 255. -/
def parseU8digits (digits : List Char) : Option Nat :=
  if digits ≠ [] ∧ digits.all Char.isDigit then
    if digits.foldl (fun acc c => acc * 10 + (c.toNat - 48)) 0 ≤ 255 then
      some (digits.foldl (fun acc c => acc * 10 + (c.toNat - 48)) 0)
    else none
  else none

/-- `str::parse::<u8>`: an optional leading `+`, then one or more ASCII
digits, value at most 255. -/
def parseU8 (s : List Char) : Option Nat :=
  parseU8digits (if s.head? = some '+' then s.tail else s)

/-- `parse_damaged_counts`: split on commas and keep the pieces that parse
(`filter_map(|num| num.parse().ok())` silently drops failures). -/
def parse_damaged_counts (spec : List Char) : List Nat :=
  (splitAll ',' spec).filterMap parseU8

/-- `parse_line`.  `none` models the two panics: `split_once(" ").unwrap()`
on a line with no space, and `unreachable!()` on a bad spring character. -/
def parse_line (line : List Char) : Option ConditionRow :=
  (splitOnce ' ' line).bind fun p =>
    (parse_springs p.1).map fun springs =>
      ⟨springs, parse_damaged_counts p.2⟩

/-- `parse_input`: every line must parse. -/
def parse_input (input : List (List Char)) : Option (List ConditionRow) :=
  input.mapM parse_line

end Parsing

section SpecModel

/-- Resolved state of a single cell, for the specification-side count:
`true` = damaged, `false` = operational. -/
def cellsOfRow (row : ConditionRow) : List SpringCondition :=
  row.springs.flatMap fun g => List.replicate g.value (g.with_value 1)

/-- Maximal damaged-run lengths of a resolved cell sequence
(`true` = damaged cell). -/
def spec_runLengths : List Bool → List Nat
  | [] => []
  | false :: rest => spec_runLengths rest
  | true :: rest =>
    match rest.head? with
    | some true =>
      match spec_runLengths rest with
      | n :: t => (n + 1) :: t
      | [] => [1]
    | _ => 1 :: spec_runLengths rest

/-- Modelled from the spec: all assignments of a concrete state to every
`Unknown` cell — each resolution is the list of per-cell damaged flags. -/
def spec_resolutions : List SpringCondition → List (List Bool)
  | [] => [[]]
  | c :: rest =>
    let rs := spec_resolutions rest
    match c with
    | .operational _ => rs.map (false :: ·)
    | .damaged _ => rs.map (true :: ·)
    | .unknown _ => rs.map (false :: ·) ++ rs.map (true :: ·)

/-- Modelled from the spec (§4.2): the exact number of distinct ways to
resolve the `Unknown` cells of a row so that the maximal damaged-run
lengths equal `target_counts`. -/
def spec_count (row : ConditionRow) : Nat :=
  ((spec_resolutions (cellsOfRow row)).filter
    fun res => spec_runLengths res = row.damaged_counts).length

/-- Well-formed row (spec §3): every run length positive, adjacent runs of
distinct type (maximal-run invariant), every target count positive. -/
def wellFormed (row : ConditionRow) : Prop :=
  (∀ g ∈ row.springs, 1 ≤ g.value)
    ∧ row.springs.Chain' (fun a b => a.same_type b = false)
    ∧ (∀ c ∈ row.damaged_counts, 1 ≤ c)

end SpecModel

section Fixtures

open SpringCondition

/-- The six example rows of the repository's test fixture
(`example_condition_rows` in `day_12.rs`). -/
def example_condition_rows : List ConditionRow :=
  [⟨[unknown 3, operational 1, damaged 3], [1, 1, 3]⟩,
   ⟨[operational 1, unknown 2, operational 2, unknown 2, operational 3,
     unknown 1, damaged 2, operational 1], [1, 1, 3]⟩,
   ⟨[unknown 1, damaged 1, unknown 1, damaged 1, unknown 1, damaged 1,
     unknown 1, damaged 1, unknown 1, damaged 1, unknown 1, damaged 1,
     unknown 1, damaged 1, unknown 1], [1, 3, 1, 6]⟩,
   ⟨[unknown 4, operational 1, damaged 1, operational 3, damaged 1,
     operational 3], [4, 1, 1]⟩,
   ⟨[unknown 4, operational 1, damaged 6, operational 2, damaged 5,
     operational 1], [1, 6, 5]⟩,
   ⟨[unknown 1, damaged 3, unknown 8], [3, 2, 1]⟩]

/-- The first fixture row, `???.### 1,1,3`. -/
def fixtureRow1 : ConditionRow :=
  ⟨[unknown 3, operational 1, damaged 3], [1, 1, 3]⟩

/-- The second fixture row, `.??..??...?##. 1,1,3`. -/
def fixtureRow2 : ConditionRow :=
  ⟨[operational 1, unknown 2, operational 2, unknown 2, operational 3,
    unknown 1, damaged 2, operational 1], [1, 1, 3]⟩

end Fixtures

/-- Total cell length of a run sequence: the sum of the run lengths. -/
def springsLength (l : List SpringCondition) : Nat :=
  (l.map SpringCondition.value).sum

/-- `total_length` of a row (spec §4.1): the sum of all its run lengths. -/
def total_length (row : ConditionRow) : Nat :=
  springsLength row.springs

section Helpers

open SpringCondition ConditionRow

theorem value_with_value (g : SpringCondition) (v : Nat) :
    (g.with_value v).value = v := by
  cases g <;> rfl

theorem springsLength_cons (g : SpringCondition) (l : List SpringCondition) :
    springsLength (g :: l) = g.value + springsLength l := by
  simp [springsLength]

theorem spring_atAuxU8_agrees (pos : Nat) :
    ∀ (l : List SpringCondition) (curr : Nat),
      curr + springsLength l ≤ 255 →
      spring_atAuxU8 pos curr l = spring_atAux pos curr l
  | [], curr, _ => rfl
  | g :: rest, curr, h => by
    rw [springsLength_cons] at h
    rw [spring_atAuxU8, spring_atAux]
    have hsmall : (curr + g.value) % 256 = curr + g.value :=
      Nat.mod_eq_of_lt (by omega)
    simp only [hsmall]
    split
    · rfl
    · exact spring_atAuxU8_agrees pos rest (curr + g.value) (by omega)

theorem parseU8digits_le_255 (digits : List Char) (v : Nat)
    (h : parseU8digits digits = some v) : v ≤ 255 := by
  unfold parseU8digits at h
  split_ifs at h with h1 h2
  · exact Option.some.inj h ▸ h2

theorem parseU8_le_255 (s : List Char) (v : Nat) (h : parseU8 s = some v) :
    v ≤ 255 :=
  parseU8digits_le_255 _ v h

theorem push_group_ok_of_le (acc : List SpringCondition) (g : SpringCondition)
    (h : springsLength acc + g.value ≤ 255) :
    ∃ acc', push_group acc g = .ok acc'
      ∧ springsLength acc' = springsLength acc + g.value := by
  cases acc with
  | nil => exact ⟨[g], rfl, by simp [springsLength]⟩
  | cons a t =>
    rw [springsLength_cons] at h
    rw [push_group]
    split
    · rw [if_pos (by omega)]
      refine ⟨_, rfl, ?_⟩
      rw [springsLength_cons, springsLength_cons, value_with_value]
      ring
    · refine ⟨_, rfl, ?_⟩
      rw [springsLength_cons, springsLength_cons]
      ring

theorem springsLength_reverse (l : List SpringCondition) :
    springsLength l.reverse = springsLength l := by
  simp [springsLength, List.sum_reverse]

theorem springsLength_append (a b : List SpringCondition) :
    springsLength (a ++ b) = springsLength a + springsLength b := by
  simp [springsLength]

theorem springsLength_repeatList (l : List SpringCondition) :
    ∀ n, springsLength (repeatList l n) = n * springsLength l
  | 0 => by simp [repeatList, springsLength]
  | n + 1 => by
    rw [repeatList, springsLength_append, springsLength_repeatList l n]
    ring

theorem push_group_not_same (acc : List SpringCondition) (g : SpringCondition)
    (h : ∀ a ∈ acc.head?, a.same_type g = false) :
    push_group acc g = .ok (g :: acc) := by
  cases acc with
  | nil => rfl
  | cons a t =>
    have := h a (by simp)
    simp [push_group, this]

theorem same_type_with_value_left (g b : SpringCondition) (v : Nat) :
    (g.with_value v).same_type b = g.same_type b := by
  cases g <;> cases b <;> rfl

theorem same_type_symm (a b : SpringCondition) :
    a.same_type b = b.same_type a := by
  cases a <;> cases b <;> rfl

theorem same_type_trans_eq (a g b : SpringCondition)
    (h : a.same_type g = true) : g.same_type b = a.same_type b := by
  cases a <;> cases g <;> cases b <;>
    first
      | rfl
      | simp [SpringCondition.same_type, SpringCondition.is_operational,
          SpringCondition.is_damaged, SpringCondition.is_unknown] at h

theorem push_group_ok_chain (acc : List SpringCondition) (g : SpringCondition)
    (acc' : List SpringCondition) (hok : push_group acc g = .ok acc')
    (h : acc.Chain' fun a b => a.same_type b = false) :
    acc'.Chain' fun a b => a.same_type b = false := by
  cases acc with
  | nil =>
    cases hok
    simp
  | cons a t =>
    rw [push_group] at hok
    split at hok
    · rename_i hag
      split at hok
      · cases hok
        refine List.chain'_cons'.mpr ⟨?_, (List.chain'_cons'.mp h).2⟩
        intro b hb
        rw [same_type_with_value_left, same_type_trans_eq a g b hag]
        exact (List.chain'_cons'.mp h).1 b hb
      · exact Except.noConfusion hok
    · rename_i hag
      cases hok
      refine List.chain'_cons'.mpr ⟨?_, h⟩
      intro b hb
      simp only [List.head?_cons, Option.mem_def, Option.some.injEq] at hb
      subst hb
      rw [same_type_symm]
      exact Bool.not_eq_true _ ▸ hag

theorem push_group_ok_values (acc : List SpringCondition) (g : SpringCondition)
    (acc' : List SpringCondition) (hok : push_group acc g = .ok acc')
    (ha : ∀ x ∈ acc, 1 ≤ x.value) (hg : 1 ≤ g.value) :
    ∀ x ∈ acc', 1 ≤ x.value := by
  cases acc with
  | nil =>
    cases hok
    intro x hx
    simp only [List.mem_singleton] at hx
    exact hx ▸ hg
  | cons a t =>
    rw [push_group] at hok
    split at hok
    · split at hok
      · cases hok
        intro x hx
        rcases List.mem_cons.mp hx with hx | hx
        · rw [hx, value_with_value]
          have := ha a (by simp)
          omega
        · exact ha x (List.mem_cons_of_mem a hx)
      · exact Except.noConfusion hok
    · cases hok
      intro x hx
      rcases List.mem_cons.mp hx with hx | hx
      · exact hx ▸ hg
      · exact ha x hx

theorem decideLoop_ok_chain (rep : SpringCondition) :
    ∀ (l : List SpringCondition) (sr rr : Nat) (acc : List SpringCondition)
      (counts : List Nat) (out : List SpringCondition × List Nat),
      decideLoop rep l sr rr acc counts = .ok out →
      (acc.Chain' fun a b => a.same_type b = false) →
      out.1.Chain' fun a b => a.same_type b = false
  | [], sr, rr, acc, counts, out => by
    intro hok hacc
    simp only [decideLoop] at hok
    cases hok
    exact List.chain'_reverse.mpr
      (hacc.imp fun a b hab => show b.same_type a = false by rwa [same_type_symm])
  | g :: rest, sr, rr, acc, counts, out => by
    intro hok hacc
    simp only [decideLoop] at hok
    by_cases h1 : 0 < sr
    · rw [if_pos h1] at hok
      by_cases h2 : g.value ≤ sr
      · rw [if_pos h2] at hok
        by_cases h3 : g.is_damaged = true
        · rw [if_pos h3] at hok
          cases counts with
          | nil => exact Except.noConfusion hok
          | cons c cs =>
            dsimp only at hok
            by_cases h4 : c = g.value
            · rw [if_pos h4] at hok
              exact decideLoop_ok_chain rep rest _ _ _ _ _ hok hacc
            · rw [if_neg h4] at hok
              exact Except.noConfusion hok
        · rw [if_neg h3] at hok
          exact decideLoop_ok_chain rep rest _ _ _ _ _ hok hacc
      · rw [if_neg h2] at hok
        exact Except.noConfusion hok
    · rw [if_neg h1] at hok
      by_cases h2 : rr = 0
      · rw [if_pos h2] at hok
        cases hpg : push_group acc g with
        | error p =>
          rw [hpg] at hok
          exact Except.noConfusion hok
        | ok acc' =>
          rw [hpg] at hok
          exact decideLoop_ok_chain rep rest _ _ _ _ _ hok
            (push_group_ok_chain acc g acc' hpg hacc)
      · rw [if_neg h2] at hok
        by_cases h3 : rr ≤ g.value
        · rw [if_pos h3] at hok
          cases hpg1 : push_group acc rep with
          | error p =>
            rw [hpg1] at hok
            exact Except.noConfusion hok
          | ok acc1 =>
            rw [hpg1] at hok
            dsimp only at hok
            by_cases h4 : rr < g.value
            · rw [if_pos h4] at hok
              cases hpg2 : push_group acc1 (g.with_value (g.value - rr)) with
              | error p =>
                rw [hpg2] at hok
                exact Except.noConfusion hok
              | ok acc2 =>
                rw [hpg2] at hok
                exact decideLoop_ok_chain rep rest _ _ _ _ _ hok
                  (push_group_ok_chain _ _ acc2 hpg2
                    (push_group_ok_chain acc rep acc1 hpg1 hacc))
            · rw [if_neg h4] at hok
              exact decideLoop_ok_chain rep rest _ _ _ _ _ hok
                (push_group_ok_chain acc rep acc1 hpg1 hacc)
        · rw [if_neg h3] at hok
          exact decideLoop_ok_chain rep rest _ _ _ _ _ hok hacc

theorem decideLoop_ok_values (rep : SpringCondition) :
    ∀ (l : List SpringCondition) (sr rr : Nat) (acc : List SpringCondition)
      (counts : List Nat) (out : List SpringCondition × List Nat),
      decideLoop rep l sr rr acc counts = .ok out →
      rr ≤ rep.value →
      (∀ g ∈ l, 1 ≤ g.value) →
      (∀ x ∈ acc, 1 ≤ x.value) →
      ∀ x ∈ out.1, 1 ≤ x.value
  | [], sr, rr, acc, counts, out => by
    intro hok hrr hl hacc
    simp only [decideLoop] at hok
    cases hok
    intro x hx
    exact hacc x (List.mem_reverse.mp hx)
  | g :: rest, sr, rr, acc, counts, out => by
    intro hok hrr hl hacc
    have hg : 1 ≤ g.value := hl g (by simp)
    have hrest : ∀ x ∈ rest, 1 ≤ x.value := fun x hx => hl x (by simp [hx])
    simp only [decideLoop] at hok
    by_cases h1 : 0 < sr
    · rw [if_pos h1] at hok
      by_cases h2 : g.value ≤ sr
      · rw [if_pos h2] at hok
        by_cases h3 : g.is_damaged = true
        · rw [if_pos h3] at hok
          cases counts with
          | nil => exact Except.noConfusion hok
          | cons c cs =>
            dsimp only at hok
            by_cases h4 : c = g.value
            · rw [if_pos h4] at hok
              exact decideLoop_ok_values rep rest _ _ _ _ _ hok hrr hrest hacc
            · rw [if_neg h4] at hok
              exact Except.noConfusion hok
        · rw [if_neg h3] at hok
          exact decideLoop_ok_values rep rest _ _ _ _ _ hok hrr hrest hacc
      · rw [if_neg h2] at hok
        exact Except.noConfusion hok
    · rw [if_neg h1] at hok
      by_cases h2 : rr = 0
      · rw [if_pos h2] at hok
        cases hpg : push_group acc g with
        | error p =>
          rw [hpg] at hok
          exact Except.noConfusion hok
        | ok acc' =>
          rw [hpg] at hok
          exact decideLoop_ok_values rep rest _ _ _ _ _ hok hrr hrest
            (push_group_ok_values acc g acc' hpg hacc hg)
      · rw [if_neg h2] at hok
        have hrep : 1 ≤ rep.value := by omega
        by_cases h3 : rr ≤ g.value
        · rw [if_pos h3] at hok
          cases hpg1 : push_group acc rep with
          | error p =>
            rw [hpg1] at hok
            exact Except.noConfusion hok
          | ok acc1 =>
            rw [hpg1] at hok
            dsimp only at hok
            have hacc1 : ∀ x ∈ acc1, 1 ≤ x.value :=
              push_group_ok_values acc rep acc1 hpg1 hacc hrep
            by_cases h4 : rr < g.value
            · rw [if_pos h4] at hok
              cases hpg2 : push_group acc1 (g.with_value (g.value - rr)) with
              | error p =>
                rw [hpg2] at hok
                exact Except.noConfusion hok
              | ok acc2 =>
                rw [hpg2] at hok
                refine decideLoop_ok_values rep rest _ _ _ _ _ hok (by omega) hrest ?_
                refine push_group_ok_values _ _ acc2 hpg2 hacc1 ?_
                rw [value_with_value]
                omega
            · rw [if_neg h4] at hok
              exact decideLoop_ok_values rep rest _ _ _ _ _ hok (by omega) hrest hacc1
        · rw [if_neg h3] at hok
          exact decideLoop_ok_values rep rest _ _ _ _ _ hok (by omega) hrest hacc

theorem decideLoop_zero_distinct (rep : SpringCondition) :
    ∀ (l acc : List SpringCondition) (counts : List Nat),
      l.Chain' (fun a b => a.same_type b = false) →
      (∀ a ∈ acc.head?, ∀ b ∈ l.head?, a.same_type b = false) →
      decideLoop rep l 0 0 acc counts = .ok ((l.reverse ++ acc).reverse, counts)
  | [], acc, counts, _, _ => by simp [decideLoop]
  | g :: rest, acc, counts, hchain, hacc => by
    have hpush : push_group acc g = .ok (g :: acc) :=
      push_group_not_same acc g (fun a ha => hacc a ha g (by simp))
    have hrec := decideLoop_zero_distinct rep rest (g :: acc) counts
      (List.chain'_cons'.mp hchain).2 ?_
    · simp only [decideLoop, Nat.lt_irrefl, if_false, if_pos rfl, hpush]
      rw [hrec]
      simp
    · intro a ha b hb
      simp only [List.head?_cons, Option.mem_def, Option.some.injEq] at ha
      exact ha ▸ (List.chain'_cons'.mp hchain).1 b hb

theorem decideLoop_zero_sum (rep : SpringCondition) :
    ∀ (l acc : List SpringCondition) (counts : List Nat),
      springsLength acc + springsLength l ≤ 255 →
      ∃ accF, decideLoop rep l 0 0 acc counts = .ok (accF.reverse, counts)
        ∧ springsLength accF = springsLength acc + springsLength l
  | [], acc, counts, _ => ⟨acc, by simp [decideLoop], by simp [springsLength]⟩
  | g :: rest, acc, counts, h => by
    rw [springsLength_cons] at h
    obtain ⟨acc', hpush, hsum⟩ := push_group_ok_of_le acc g (by omega)
    obtain ⟨accF, hloop, hsumF⟩ := decideLoop_zero_sum rep rest acc' counts
      (by rw [hsum]; omega)
    refine ⟨accF, ?_, by rw [hsumF, hsum, springsLength_cons]; ring⟩
    simp only [decideLoop, Nat.lt_irrefl, if_false, if_pos rfl, hpush]
    exact hloop

theorem decide_ok_parts (row : ConditionRow) (start : Nat)
    (rep : SpringCondition) (out : ConditionRow)
    (h : row.decide start rep = .ok out) :
    ∃ p : List SpringCondition × List Nat,
      decideLoop rep row.springs start rep.value [] row.damaged_counts = .ok p
      ∧ out.springs = p.1 := by
  unfold ConditionRow.decide at h
  cases hdl : decideLoop rep row.springs start rep.value [] row.damaged_counts with
  | error e =>
    rw [hdl] at h
    exact Except.noConfusion h
  | ok p =>
    rw [hdl] at h
    simp only [Except.map] at h
    cases h
    exact ⟨p, rfl, rfl⟩

theorem decide_ok_chain (row : ConditionRow) (start : Nat)
    (rep : SpringCondition) (out : ConditionRow)
    (h : row.decide start rep = .ok out) :
    out.springs.Chain' fun a b => a.same_type b = false := by
  obtain ⟨p, hdl, hsp⟩ := decide_ok_parts row start rep out h
  rw [hsp]
  exact decideLoop_ok_chain rep row.springs start rep.value [] row.damaged_counts
    p hdl List.chain'_nil

theorem decide_ok_values (row : ConditionRow) (start : Nat)
    (rep : SpringCondition) (out : ConditionRow)
    (h : row.decide start rep = .ok out)
    (hrow : ∀ g ∈ row.springs, 1 ≤ g.value) :
    ∀ x ∈ out.springs, 1 ≤ x.value := by
  obtain ⟨p, hdl, hsp⟩ := decide_ok_parts row start rep out h
  rw [hsp]
  exact decideLoop_ok_values rep row.springs start rep.value [] row.damaged_counts
    p hdl (Nat.le_refl _) hrow (by simp)

theorem mem_repeatList {α : Type} (l : List α) :
    ∀ (n : Nat) (x : α), x ∈ repeatList l n → x ∈ l
  | 0, x, h => absurd h (List.not_mem_nil x)
  | n + 1, x, h => by
    rw [repeatList] at h
    rcases List.mem_append.mp h with h | h
    · exact h
    · exact mem_repeatList l n x h

theorem springOfRun_shape (r : Char × Nat) (g : SpringCondition)
    (h : springOfRun r = some g) :
    (r.1 = '?' ∧ g = unknown (r.2 % 256))
      ∨ (r.1 = '.' ∧ g = operational (r.2 % 256))
      ∨ (r.1 = '#' ∧ g = damaged (r.2 % 256)) := by
  unfold springOfRun at h
  split_ifs at h with h1 h2 h3
  · exact Or.inl ⟨h1, (Option.some.inj h).symm⟩
  · exact Or.inr (Or.inl ⟨h2, (Option.some.inj h).symm⟩)
  · exact Or.inr (Or.inr ⟨h3, (Option.some.inj h).symm⟩)

theorem springOfRun_value (r : Char × Nat) (g : SpringCondition)
    (h : springOfRun r = some g) : g.value = r.2 % 256 := by
  rcases springOfRun_shape r g h with ⟨-, rfl⟩ | ⟨-, rfl⟩ | ⟨-, rfl⟩ <;> rfl

theorem springOfRun_distinct (r r' : Char × Nat) (g g' : SpringCondition)
    (hg : springOfRun r = some g) (hg' : springOfRun r' = some g')
    (hne : r.1 ≠ r'.1) : g.same_type g' = false := by
  rcases springOfRun_shape r g hg with ⟨h1, rfl⟩ | ⟨h1, rfl⟩ | ⟨h1, rfl⟩ <;>
    rcases springOfRun_shape r' g' hg' with ⟨h2, rfl⟩ | ⟨h2, rfl⟩ | ⟨h2, rfl⟩ <;>
    first
      | rfl
      | exact absurd (h1.trans h2.symm) hne

theorem runsOf_chain : ∀ l : List Char, (runsOf l).Chain' fun a b => a.1 ≠ b.1
  | [] => List.chain'_nil
  | c :: rest => by
    have ih := runsOf_chain rest
    rw [runsOf]
    cases h : runsOf rest with
    | nil => simp
    | cons p more =>
      obtain ⟨c', n⟩ := p
      rw [h] at ih
      dsimp only
      by_cases hc : c = c'
      · rw [if_pos hc]
        refine List.chain'_cons'.mpr ⟨?_, (List.chain'_cons'.mp ih).2⟩
        intro b hb
        exact hc ▸ (List.chain'_cons'.mp ih).1 b hb
      · rw [if_neg hc]
        refine List.chain'_cons'.mpr ⟨?_, ih⟩
        intro b hb
        simp only [List.head?_cons, Option.mem_def, Option.some.injEq] at hb
        subst hb
        exact hc

theorem runsOf_values : ∀ l : List Char, ∀ r ∈ runsOf l, 1 ≤ r.2
  | [] => by simp [runsOf]
  | c :: rest => by
    have ih := runsOf_values rest
    rw [runsOf]
    cases h : runsOf rest with
    | nil =>
      intro r hr
      simp only [List.mem_singleton] at hr
      subst hr
      exact Nat.le_refl 1
    | cons p more =>
      obtain ⟨c', n⟩ := p
      rw [h] at ih
      dsimp only
      by_cases hc : c = c'
      · rw [if_pos hc]
        intro r hr
        rcases List.mem_cons.mp hr with rfl | hr
        · exact Nat.le_add_left 1 n
        · exact ih r (List.mem_cons_of_mem _ hr)
      · rw [if_neg hc]
        intro r hr
        rcases List.mem_cons.mp hr with rfl | hr
        · exact Nat.le_refl 1
        · exact ih r hr

theorem springsOfRuns_chain :
    ∀ (runs : List (Char × Nat)) (springs : List SpringCondition),
      springsOfRuns runs = some springs →
      (runs.Chain' fun a b => a.1 ≠ b.1) →
      springs.Chain' fun a b => a.same_type b = false
  | [], springs, h, _ => by
    cases h
    exact List.chain'_nil
  | r :: rest, springs, h, hchain => by
    rw [springsOfRuns] at h
    cases hg : springOfRun r with
    | none =>
      rw [hg] at h
      exact Option.noConfusion h
    | some g =>
      rw [hg] at h
      dsimp only [Option.bind] at h
      cases hrest : springsOfRuns rest with
      | none =>
        rw [hrest] at h
        exact Option.noConfusion h
      | some gs =>
        rw [hrest] at h
        dsimp only [Option.map] at h
        cases h
        have ihchain := springsOfRuns_chain rest gs hrest
          (List.chain'_cons'.mp hchain).2
        refine List.chain'_cons'.mpr ⟨?_, ihchain⟩
        intro b hb
        cases rest with
        | nil =>
          cases hrest
          simp at hb
        | cons r' rest' =>
          rw [springsOfRuns] at hrest
          cases hg' : springOfRun r' with
          | none =>
            rw [hg'] at hrest
            exact Option.noConfusion hrest
          | some g' =>
            rw [hg'] at hrest
            dsimp only [Option.bind] at hrest
            cases hrest' : springsOfRuns rest' with
            | none =>
              rw [hrest'] at hrest
              exact Option.noConfusion hrest
            | some gs' =>
              rw [hrest'] at hrest
              dsimp only [Option.map] at hrest
              cases hrest
              simp only [List.head?_cons, Option.mem_def, Option.some.injEq] at hb
              subst hb
              exact springOfRun_distinct r r' g g' hg hg'
                ((List.chain'_cons'.mp hchain).1 r' (by simp))

theorem springsOfRuns_values :
    ∀ (runs : List (Char × Nat)) (springs : List SpringCondition),
      springsOfRuns runs = some springs →
      (∀ r ∈ runs, 1 ≤ r.2) →
      (∀ r ∈ runs, r.2 ≤ 255) →
      ∀ g ∈ springs, 1 ≤ g.value
  | [], springs, h, _, _ => by
    cases h
    simp
  | r :: rest, springs, h, hval, hbound => by
    rw [springsOfRuns] at h
    cases hg : springOfRun r with
    | none =>
      rw [hg] at h
      exact Option.noConfusion h
    | some g =>
      rw [hg] at h
      dsimp only [Option.bind] at h
      cases hrest : springsOfRuns rest with
      | none =>
        rw [hrest] at h
        exact Option.noConfusion h
      | some gs =>
        rw [hrest] at h
        dsimp only [Option.map] at h
        cases h
        have ihval := springsOfRuns_values rest gs hrest
          (fun x hx => hval x (List.mem_cons_of_mem r hx))
          (fun x hx => hbound x (List.mem_cons_of_mem r hx))
        intro x hx
        rcases List.mem_cons.mp hx with rfl | hx
        · have hb255 : r.2 ≤ 255 := hbound r (by simp)
          rw [springOfRun_value r x hg, Nat.mod_eq_of_lt (by omega)]
          exact hval r (by simp)
        · exact ihval x hx

theorem parse_line_some_springs (line : List Char) (row : ConditionRow)
    (h : parse_line line = some row) :
    ∃ sp, (∃ rest, splitOnce ' ' line = some (sp, rest))
      ∧ springsOfRuns (runsOf sp) = some row.springs := by
  unfold parse_line at h
  cases hs : splitOnce ' ' line with
  | none =>
    rw [hs] at h
    exact Option.noConfusion h
  | some p =>
    obtain ⟨sp, rest⟩ := p
    rw [hs] at h
    dsimp only [Option.bind] at h
    cases hps : parse_springs sp with
    | none =>
      rw [hps] at h
      exact Option.noConfusion h
    | some springs =>
      rw [hps] at h
      dsimp only [Option.map] at h
      cases h
      exact ⟨sp, ⟨rest, rfl⟩, hps⟩

theorem mem_explodeSprings_value (s : List SpringCondition) (k : Nat)
    (x : SpringCondition) (hx : x ∈ explodeSprings s k)
    (hs : ∀ g ∈ s, 1 ≤ g.value) : 1 ≤ x.value := by
  rcases List.mem_append.mp hx with hx | hx
  · exact hs x hx
  · rcases List.mem_cons.mp (mem_repeatList _ _ x hx) with rfl | hx
    · exact Nat.le_refl 1
    · exact hs x hx

theorem springOfRun_none_iff (r : Char × Nat) :
    springOfRun r = none ↔ ¬(r.1 = '.' ∨ r.1 = '#' ∨ r.1 = '?') := by
  unfold springOfRun
  split_ifs with h1 h2 h3 <;> simp_all

theorem springsOfRuns_none_iff :
    ∀ runs : List (Char × Nat),
      springsOfRuns runs = none ↔ ∃ r ∈ runs, springOfRun r = none
  | [] => by simp [springsOfRuns]
  | r :: rest => by
    rw [springsOfRuns]
    cases hg : springOfRun r with
    | none => simp [hg]
    | some g =>
      dsimp only [Option.bind]
      constructor
      · intro h
        cases hrest : springsOfRuns rest with
        | none =>
          obtain ⟨r', hr', hn⟩ := (springsOfRuns_none_iff rest).mp hrest
          exact ⟨r', List.mem_cons_of_mem r hr', hn⟩
        | some gs =>
          rw [hrest] at h
          exact Option.noConfusion h
      · intro ⟨r', hr', hnone⟩
        rcases List.mem_cons.mp hr' with rfl | hr'
        · rw [hg] at hnone
          exact Option.noConfusion hnone
        · rw [(springsOfRuns_none_iff rest).mpr ⟨r', hr', hnone⟩]
          rfl

theorem runsOf_ne_nil (c : Char) (rest : List Char) :
    runsOf (c :: rest) ≠ [] := by
  rw [runsOf]
  cases h : runsOf rest with
  | nil => simp
  | cons p more =>
    obtain ⟨c', n⟩ := p
    dsimp only
    split <;> simp

theorem mem_runsOf_fst :
    ∀ (l : List Char) (c : Char), (∃ n, (c, n) ∈ runsOf l) ↔ c ∈ l
  | [], c => by simp [runsOf]
  | c0 :: rest, c => by
    have ih := mem_runsOf_fst rest c
    rw [runsOf]
    cases h : runsOf rest with
    | nil =>
      have hrest : rest = [] := by
        cases rest with
        | nil => rfl
        | cons x xs => exact absurd h (runsOf_ne_nil x xs)
      subst hrest
      simp
    | cons p more =>
      obtain ⟨c', n⟩ := p
      rw [h] at ih
      dsimp only
      by_cases hc : c0 = c'
      · rw [if_pos hc]
        constructor
        · intro ⟨m, hm⟩
          rcases List.mem_cons.mp hm with heq | hm
          · have hcc : c = c0 := congrArg Prod.fst heq
            exact hcc ▸ List.mem_cons_self _ _
          · exact List.mem_cons_of_mem c0 (ih.mp ⟨m, List.mem_cons_of_mem _ hm⟩)
        · intro hmem
          rcases List.mem_cons.mp hmem with rfl | hmem
          · exact ⟨n + 1, List.mem_cons_self _ _⟩
          · obtain ⟨m, hm⟩ := ih.mpr hmem
            rcases List.mem_cons.mp hm with heq | hm
            · have : c = c' := congrArg Prod.fst heq
              exact ⟨n + 1, this ▸ hc ▸ List.mem_cons_self _ _⟩
            · exact ⟨m, List.mem_cons_of_mem _ hm⟩
      · rw [if_neg hc]
        constructor
        · intro ⟨m, hm⟩
          rcases List.mem_cons.mp hm with heq | hm
          · have : c = c0 := congrArg Prod.fst heq
            exact this ▸ List.mem_cons_self _ _
          · exact List.mem_cons_of_mem c0 (ih.mp ⟨m, hm⟩)
        · intro hmem
          rcases List.mem_cons.mp hmem with rfl | hmem
          · exact ⟨1, List.mem_cons_self _ _⟩
          · obtain ⟨m, hm⟩ := ih.mpr hmem
            exact ⟨m, List.mem_cons_of_mem _ hm⟩

theorem parse_springs_none_iff (sp : List Char) :
    parse_springs sp = none ↔ ∃ c ∈ sp, ¬(c = '.' ∨ c = '#' ∨ c = '?') := by
  unfold parse_springs
  rw [springsOfRuns_none_iff]
  constructor
  · intro ⟨r, hr, hnone⟩
    refine ⟨r.1, (mem_runsOf_fst sp r.1).mp ⟨r.2, by simpa using hr⟩, ?_⟩
    exact (springOfRun_none_iff r).mp hnone
  · intro ⟨c, hc, hbad⟩
    obtain ⟨n, hn⟩ := (mem_runsOf_fst sp c).mpr hc
    exact ⟨(c, n), hn, (springOfRun_none_iff (c, n)).mpr hbad⟩

end Helpers

section ClaimEvaluations

open SpringCondition ConditionRow

/-- **C1.**  `count_permutations` does not compute the number of valid
resolutions: on the fixture row `???.### 1,1,3` it returns 0 while the
specification count (and the repository's own test) is 1.  The committed
`decide` drops the prefix before `start` from the returned row, so the
chained `decide(start_pos + expected_count, ...)` calls of
`count_permutations` address the wrong cells whenever `start_pos > 0`. -/
theorem claim_C1_count_mismatch :
    count_permutations 100 fixtureRow1 = .ok 0 ∧ spec_count fixtureRow1 = 1 := by
  constructor
  · rfl
  · rfl

/-- **C2.**  `count_permutations` is not panic-free on well-formed rows: on
the fixture row `.??..??...?##. 1,1,3` a chained `decide` call reaches the
start-phase subtraction `start_remaining -= group.value()` with
`start_remaining` smaller than the group value, which panics in a debug
build (and in a release build the wrapped remainder drives the
`assert_eq!` into failing instead). -/
theorem claim_C2_count_panics :
    count_permutations 100 fixtureRow2 = .panicked .subUnderflow := by
  rfl

/-- **C5.**  On the six canonical example rows the committed code does not
return 1, 4, 1, 1, 4, 10: it returns 0, 0 and 1 on three of them and
panics on the other three, and both summation drivers panic instead of
producing 21 and 525152. -/
theorem claim_C5_fixture_counts :
    example_condition_rows.map (count_permutations 100) =
      [.ok 0, .panicked .subUnderflow, .ok 0, .ok 1,
       .panicked .subUnderflow, .panicked .subUnderflow]
    ∧ sum_permutations 100 example_condition_rows = .panicked .subUnderflow
    ∧ sum_exploded_permutations 100 example_condition_rows = .panicked .subUnderflow := by
  refine ⟨?_, ?_, ?_⟩ <;> rfl

/-- **C8** (counterexample).  `explode` with repeat factor 0 does not fail:
it returns the row's springs (merge-normalised) with an emptied
`damaged_counts`, contradicting "for k < 1 it fails". -/
theorem claim_C8_counterexample :
    ConditionRow.explode ⟨[unknown 2], [1]⟩ 0 = .ok ⟨[unknown 2], []⟩ := by
  rfl

/-- **C8** (amended).  `explode`'s failure condition is unrelated to
`k < 1`: for every row and every repeat factor — including 0 — it succeeds
whenever the total length of the run sequence it builds fits in a `u8`
(at most 255); its only failure mode is the debug-build overflow of the
run-merging `u8` addition in `push_group`, exhibited by `[Unknown 128]`
unfolded by 3. -/
theorem claim_C8_explode_failure_modes :
    (∀ (row : ConditionRow) (k : Nat),
        springsLength (explodeSprings row.springs k) ≤ 255 →
        ∃ out, row.explode k = .ok out)
    ∧ ConditionRow.explode ⟨[unknown 128], [1]⟩ 3 = .error .addOverflow := by
  constructor
  · intro row k hfit
    obtain ⟨accF, hloop, -⟩ := decideLoop_zero_sum (operational 0)
      (explodeSprings row.springs k) [] (repeatList row.damaged_counts k)
      (by simpa [springsLength] using hfit)
    refine ⟨⟨accF.reverse, repeatList row.damaged_counts k⟩, ?_⟩
    show (decideLoop (operational 0) (explodeSprings row.springs k) 0 0 []
        (repeatList row.damaged_counts k)).map _ = _
    rw [hloop]
    rfl
  · rfl

/-- **C10.**  Positions and counts are 8-bit: the `u8` accumulator of
`spring_at` agrees with the idealised position walk exactly when the row's
total cell length is at most 255; one cell beyond that, the wrap of
`curr += group.value()` modulo 2^8 changes the answer; and every target
count produced by parsing fits in a `u8`. -/
theorem claim_C10_u8_positions :
    (∀ (row : ConditionRow) (pos : Nat), total_length row ≤ 255 →
        row.spring_atU8 pos = row.spring_at pos)
    ∧ ConditionRow.spring_atU8 ⟨[damaged 200, operational 56], []⟩ 200 = none
    ∧ ConditionRow.spring_at ⟨[damaged 200, operational 56], []⟩ 200 =
        some (operational 56)
    ∧ total_length ⟨[damaged 200, operational 56], []⟩ = 256
    ∧ (∀ (spec : List Char) (c : Nat), c ∈ parse_damaged_counts spec → c ≤ 255) := by
  refine ⟨?_, rfl, rfl, rfl, ?_⟩
  · intro row pos h
    exact spring_atAuxU8_agrees pos row.springs 0 (by simpa [total_length] using h)
  · intro spec c hc
    obtain ⟨piece, -, hp⟩ := List.mem_filterMap.mp hc
    exact parseU8_le_255 piece c hp

/-- **C4.**  On a row with no `Unknown` runs, `count_permutations` pops the
single starting row, compares its damaged-run lengths against
`damaged_counts`, and stops: the count is 1 on a match and 0 otherwise. -/
theorem claim_C4_resolved_rows (row : ConditionRow) (fuel : Nat)
    (hf : 0 < fuel) (h : ∀ g ∈ row.springs, g.is_unknown = false) :
    count_permutations fuel row =
      .ok (if damaged_run_lengths row = row.damaged_counts then 1 else 0) := by
  obtain ⟨f, rfl⟩ : ∃ f, fuel = f + 1 := ⟨fuel - 1, by omega⟩
  have hfilter : (row.springs.filter SpringCondition.is_unknown).length = 0 := by
    have : row.springs.filter SpringCondition.is_unknown = [] := by
      rw [List.filter_eq_nil_iff]
      intro g hg
      simp [h g hg]
    rw [this]
    rfl
  simp only [count_permutations, countLoop, List.not_mem_nil, if_false, hfilter,
    if_pos rfl, if_true, Nat.zero_add]

/-- **C4** (witness): a fully resolved row matching its target counts. -/
theorem claim_C4_witness :
    count_permutations 1 ⟨[damaged 2, operational 1], [2]⟩ = .ok 1 := by
  have h := claim_C4_resolved_rows ⟨[damaged 2, operational 1], [2]⟩ 1
    (by decide) (by decide)
  simpa [damaged_run_lengths] using h

/-- **C6** (counterexample).  The length law fails without a `u8` bound:
unfolding `[Unknown 255]` by 2 makes `push_group` merge the inserted
separator into the 255-long run, overflowing the `u8` addition (a
debug-build panic), so no row with total length `2 * 255 + 1` is ever
produced. -/
theorem claim_C6_counterexample :
    (ConditionRow.explode ⟨[unknown 255], [1]⟩ 2).map total_length =
      .error .addOverflow := by
  rfl

/-- **C6** (amended).  `explode` multiplies the total cell length whenever
the result fits in a `u8`: for every row and every `k ≥ 1` with
`k * total + (k - 1) ≤ 255`, the unfolded row's total length is `k` times
the row's total length plus the `k - 1` inserted `Unknown` separators;
beyond a `u8` the run-merging addition overflows instead. -/
theorem claim_C6_explode_length (row : ConditionRow) (k : Nat) (hk : 1 ≤ k)
    (hfit : k * total_length row + (k - 1) ≤ 255) :
    (row.explode k).map total_length =
      .ok (k * total_length row + (k - 1)) := by
  obtain ⟨j, rfl⟩ : ∃ j, k = j + 1 := ⟨k - 1, by omega⟩
  have ht : total_length row = springsLength row.springs := rfl
  have hone : (unknown 1).value = 1 := rfl
  have hlen : springsLength (explodeSprings row.springs (j + 1)) =
      (j + 1) * springsLength row.springs + j := by
    rw [explodeSprings, springsLength_append, springsLength_repeatList,
      springsLength_cons, hone]
    simp only [Nat.add_sub_cancel]
    ring
  have hfit' : (j + 1) * springsLength row.springs + j ≤ 255 := by
    rw [ht] at hfit
    simpa using hfit
  obtain ⟨accF, hloop, hsum⟩ := decideLoop_zero_sum (operational 0)
    (explodeSprings row.springs (j + 1)) []
    (repeatList row.damaged_counts (j + 1))
    (by rw [hlen]; simpa [springsLength] using hfit')
  have hexp : row.explode (j + 1) =
      .ok ⟨accF.reverse, repeatList row.damaged_counts (j + 1)⟩ := by
    show (decideLoop (operational 0) (explodeSprings row.springs (j + 1)) 0 0 []
        (repeatList row.damaged_counts (j + 1))).map _ = _
    rw [hloop]
    rfl
  rw [hexp]
  show Except.ok _ = _
  have htot : total_length
      ⟨accF.reverse, repeatList row.damaged_counts (j + 1)⟩ =
      (j + 1) * total_length row + (j + 1 - 1) := by
    show springsLength accF.reverse = _
    rw [springsLength_reverse, hsum, hlen, ht]
    simp [springsLength]
  rw [htot]

/-- **C6** (witness): a two-cell unknown row unfolded by 3 fits in a `u8`
and has total length `3 * 2 + 2 = 8`. -/
theorem claim_C6_witness :
    (ConditionRow.explode ⟨[unknown 2], [1]⟩ 3).map total_length =
      .ok (3 * total_length ⟨[unknown 2], [1]⟩ + (3 - 1)) :=
  claim_C6_explode_length ⟨[unknown 2], [1]⟩ 3 (by decide) (by decide)

/-- **C7.**  `explode` with repeat factor 1 is the identity on a row whose
runs already satisfy the maximal-run invariant: the normalisation pass
rebuilds exactly the same run sequence, and `damaged_counts.repeat(1)` is
the original list. -/
theorem claim_C7_explode_one (row : ConditionRow)
    (h : row.springs.Chain' fun a b => a.same_type b = false) :
    row.explode 1 = .ok row := by
  have hs : explodeSprings row.springs 1 = row.springs := by
    simp [explodeSprings, repeatList]
  show (decideLoop (operational 0) (explodeSprings row.springs 1) 0 0 []
      (repeatList row.damaged_counts 1)).map _ = _
  rw [hs, decideLoop_zero_distinct (operational 0) row.springs []
    (repeatList row.damaged_counts 1) h (by simp)]
  simp [repeatList]
  rfl

/-- **C7** (witness): a concrete normalised row is fixed by `explode 1`. -/
theorem claim_C7_witness :
    ConditionRow.explode ⟨[damaged 2, unknown 1], [2]⟩ 1 =
      .ok ⟨[damaged 2, unknown 1], [2]⟩ :=
  claim_C7_explode_one ⟨[damaged 2, unknown 1], [2]⟩
    (List.chain'_cons.mpr ⟨rfl, List.chain'_singleton _⟩)

set_option maxRecDepth 8000 in
/-- **C9** (counterexample).  `parse_springs` builds each run with
`group.count() as u8`, a truncating cast: a run of 256 identical `#`
characters parses successfully to `Damaged(0)` — a zero-length run,
violating the claimed positivity of parsed run lengths. -/
theorem claim_C9_counterexample :
    parse_line (List.replicate 256 '#' ++ " 1".data) =
      some ⟨[damaged 0], [1]⟩ := by
  rfl

/-- **C9** (amended).  Every row built by `parse_line`, by a successful
`decide`, or by `explode` satisfies the maximal-run invariant — no two
adjacent runs share a cell-state.  Run lengths stay positive: for `decide`
and `explode` provided every run of the input row has positive length, and
for `parse_line` provided every maximal character run of the cell spec is
at most 255 long (a 256-long run is truncated to length 0 by the `as u8`
cast). -/
theorem claim_C9_maximal_run_invariant :
    (∀ (line : List Char) (row : ConditionRow), parse_line line = some row →
        (row.springs.Chain' fun a b => a.same_type b = false)
        ∧ ∀ sp rest, splitOnce ' ' line = some (sp, rest) →
            (∀ r ∈ runsOf sp, r.2 ≤ 255) → ∀ g ∈ row.springs, 1 ≤ g.value)
    ∧ (∀ (row : ConditionRow) (start : Nat) (rep : SpringCondition)
        (out : ConditionRow), row.decide start rep = .ok out →
        (out.springs.Chain' fun a b => a.same_type b = false)
        ∧ ((∀ g ∈ row.springs, 1 ≤ g.value) → ∀ g ∈ out.springs, 1 ≤ g.value))
    ∧ (∀ (row : ConditionRow) (k : Nat) (out : ConditionRow),
        row.explode k = .ok out →
        (out.springs.Chain' fun a b => a.same_type b = false)
        ∧ ((∀ g ∈ row.springs, 1 ≤ g.value) → ∀ g ∈ out.springs, 1 ≤ g.value)) := by
  refine ⟨?_, ?_, ?_⟩
  · intro line row h
    obtain ⟨sp0, ⟨rest0, hsplit⟩, hps⟩ := parse_line_some_springs line row h
    refine ⟨springsOfRuns_chain (runsOf sp0) row.springs hps (runsOf_chain sp0),
      ?_⟩
    intro sp rest heq hbound
    obtain ⟨hsp, -⟩ := Prod.mk.injEq .. |>.mp
      (Option.some.inj (hsplit.symm.trans heq))
    subst hsp
    exact springsOfRuns_values (runsOf sp0) row.springs hps (runsOf_values sp0)
      hbound
  · intro row start rep out h
    exact ⟨decide_ok_chain row start rep out h,
      fun hr => decide_ok_values row start rep out h hr⟩
  · intro row k out h
    have h' : ConditionRow.decide
        ⟨explodeSprings row.springs k, repeatList row.damaged_counts k⟩
        0 (operational 0) = .ok out := h
    refine ⟨decide_ok_chain _ 0 (operational 0) out h', fun hr => ?_⟩
    refine decide_ok_values _ 0 (operational 0) out h' ?_
    intro g hg
    exact mem_explodeSprings_value row.springs k g hg hr

/-- **C3** (counterexample).  An unparseable integer in the counts list
does not make `parse` fail: `## 2,x` parses fine, with the `x` silently
dropped (`filter_map(|num| num.parse().ok())`), leaving counts `[2]`. -/
theorem claim_C3_counterexample :
    parse_line "## 2,x".data = some ⟨[damaged 2], [2]⟩ := by
  rfl

/-- **C3** (amended).  `parse` fails exactly when the line has no
separating space or the cell spec before the first space contains a
character outside `.`, `#`, `?`; unparseable integers in the counts list
never cause a failure. -/
theorem claim_C3_parse_failure_iff (line : List Char) :
    parse_line line = none ↔
      splitOnce ' ' line = none
      ∨ ∃ sp rest, splitOnce ' ' line = some (sp, rest)
          ∧ ∃ c ∈ sp, ¬(c = '.' ∨ c = '#' ∨ c = '?') := by
  unfold parse_line
  cases hs : splitOnce ' ' line with
  | none => simp
  | some p =>
    obtain ⟨sp0, rest0⟩ := p
    dsimp only [Option.bind]
    constructor
    · intro h
      have hnone : parse_springs sp0 = none := by
        cases hp : parse_springs sp0 with
        | none => rfl
        | some springs =>
          rw [hp] at h
          exact Option.noConfusion h
      exact Or.inr ⟨sp0, rest0, rfl, (parse_springs_none_iff sp0).mp hnone⟩
    · intro h
      rcases h with h | ⟨sp, rest, heq, hbad⟩
      · exact Option.noConfusion h
      · obtain ⟨hsp, -⟩ := Prod.mk.injEq .. ▸ Option.some.inj heq
        rw [(parse_springs_none_iff sp0).mpr (hsp ▸ hbad)]
        rfl

end ClaimEvaluations

end Day12
